import Mathlib

/-!
Shallow embedding of the character-level transformer language model in
`bigram_llm.py`.

Modelling conventions:
* Tensors over floats become functions into `ℚ`.  A feature vector is a
  function `ℕ → ℚ` together with an explicit dimension; a sequence of
  feature vectors is `ℕ → ℕ → ℚ` (position, then channel).
* `torch.exp`/`log` inside `softmax`, `cross_entropy`, and the
  `(var + eps) ** -0.5` of `LayerNorm` are transcendental, so they are
  carried as explicit function parameters (`fexp`, `flog`, `invStd`) of the
  model; theorems that need a property of the real functions (e.g. that
  `exp` is positive) take it as a hypothesis.
* `C ** -0.5` on line 90 with an integer `C` is modelled by
  `invSqrtQ C = (Nat.sqrt C)⁻¹`, exact whenever `C` is a perfect square
  (the source's `n_embd = 64` is one).
* The source fixes `dropout = 0.0` (line 17), so every `nn.Dropout` is the
  identity and is dropped from the embedding.
* Python exceptions (embedding-lookup `IndexError` for an out-of-range
  token id or a position beyond `blocksize`, `KeyError` in the codec)
  become `Option`, with `none` for a raised exception.
-/

namespace BigramLLM

/-- A feature vector: channel index to rational value. -/
abbrev Vec := ℕ → ℚ

/-- Dot product of the first `n` channels of two vectors. -/
def dot (n : ℕ) (v w : Vec) : ℚ := ∑ c ∈ Finset.range n, v c * w c

/-- Linear map `nn.Linear(n, m, bias=False)` applied to a vector: row `h` of the weight
matrix dotted with the input (lines 78-80). -/
def linNB (n : ℕ) (W : ℕ → Vec) (x : Vec) : Vec := fun h => dot n (W h) x

/-- Linear map `nn.Linear(n, m)` with bias (lines 105, 119, 121, 160). -/
def linB (n : ℕ) (W : ℕ → Vec) (b : Vec) (x : Vec) : Vec :=
  fun h => dot n (W h) x + b h

/-- Models `C ** -0.5` for a natural `C`; exact for perfect squares. -/
def invSqrtQ (n : ℕ) : ℚ := ((Nat.sqrt n : ℚ))⁻¹

/-- Weights of one attention head (`Head.__init__`, lines 76-83): the
`key`, `query`, `value` projections, all without bias. -/
structure HeadParams where
  wq : ℕ → Vec
  wk : ℕ → Vec
  wv : ℕ → Vec

/-- Raw affinity scores of `Head.forward`, line 90:
`wei = q @ k.transpose(-2, -1) * C ** -0.5`, where `C = x.shape[-1]` is the
input feature dimension (`n_embd`), `hs` the head size. -/
def headScore (C hs : ℕ) (p : HeadParams) (x : ℕ → Vec) (i j : ℕ) : ℚ :=
  dot hs (linNB C p.wq (x i)) (linNB C p.wk (x j)) * invSqrtQ C

/-- Affinity formula as the spec phrases it, for comparison with
`headScore`: dot product of the projected queries and keys multiplied by
`1/sqrt(d)` for a scaling dimension `d` (the spec says `d = head_size`). -/
def specAffinity (C hs d : ℕ) (p : HeadParams) (x : ℕ → Vec) (i j : ℕ) : ℚ :=
  dot hs (linNB C p.wq (x i)) (linNB C p.wk (x j)) * invSqrtQ d

/-- Line 91: `wei.masked_fill(self.tril[:T, :T] == 0, float('-inf'))`.
`none` stands for `-inf`; entry `(i, j)` is kept exactly when `j ≤ i`
(`tril` is lower-triangular). -/
def maskedScore (C hs : ℕ) (p : HeadParams) (x : ℕ → Vec) (i j : ℕ) : Option ℚ :=
  if j ≤ i then some (headScore C hs p x i j) else none

/-- Numerator of the softmax of line 92: `exp` of the masked score, with
`exp(-inf) = 0`. -/
def expScore (fexp : ℚ → ℚ) (C hs : ℕ) (p : HeadParams) (x : ℕ → Vec)
    (i j : ℕ) : ℚ :=
  (maskedScore C hs p x i j).elim 0 fexp

/-- Softmax denominator for row `i` (line 92, `dim=-1`, over `T` keys). -/
def weiDenom (fexp : ℚ → ℚ) (C hs T : ℕ) (p : HeadParams) (x : ℕ → Vec)
    (i : ℕ) : ℚ :=
  ∑ j ∈ Finset.range T, expScore fexp C hs p x i j

/-- Attention weights after the softmax of line 92 (dropout on line 93 is
the identity since `dropout = 0.0`). -/
def wei (fexp : ℚ → ℚ) (C hs T : ℕ) (p : HeadParams) (x : ℕ → Vec)
    (i j : ℕ) : ℚ :=
  expScore fexp C hs p x i j / weiDenom fexp C hs T p x i

/-- Output of `Head.forward` (lines 95-97): `out = wei @ v` with
`v = self.value(x)`. -/
def headOut (fexp : ℚ → ℚ) (C hs T : ℕ) (p : HeadParams) (x : ℕ → Vec)
    (i : ℕ) : Vec :=
  fun h => ∑ j ∈ Finset.range T, wei fexp C hs T p x i j * linNB C p.wv (x j) h

/-- Weights of `MultiHeadAttention` (lines 102-106): `nh` heads plus the
output projection `proj : Linear(n_embd, n_embd)` with bias. -/
structure MHAParams where
  heads : ℕ → HeadParams
  projW : ℕ → Vec
  projB : Vec

/-- Line 109: `torch.cat([h(x) for h in self.heads], dim=-1)`; feature `f`
of the concatenation is feature `f % hs` of head `f / hs`. -/
def concatHeads (fexp : ℚ → ℚ) (C hs T : ℕ) (p : MHAParams) (x : ℕ → Vec)
    (i : ℕ) : Vec :=
  fun f => headOut fexp C hs T (p.heads (f / hs)) x i (f % hs)

/-- Body of `MultiHeadAttention.forward` (lines 108-111): concatenate the heads,
then the output projection (dropout is the identity). -/
def mhaOut (fexp : ℚ → ℚ) (C nh hs T : ℕ) (p : MHAParams) (x : ℕ → Vec)
    (i : ℕ) : Vec :=
  linB (nh * hs) p.projW p.projB (concatHeads fexp C hs T p x i)

/-- Weights of `FeedFoward` (lines 116-123): `Linear(C, 4C)`, ReLU,
`Linear(4C, C)`. -/
structure FFParams where
  w1 : ℕ → Vec
  b1 : Vec
  w2 : ℕ → Vec
  b2 : Vec

/-- Rectifier `nn.ReLU()` applied channel-wise. -/
def reluV (v : Vec) : Vec := fun h => max (v h) 0

/-- Body of `FeedFoward.forward` (lines 125-126), position-wise. -/
def ffOut (C : ℕ) (p : FFParams) (v : Vec) : Vec :=
  linB (4 * C) p.w2 p.b2 (reluV (linB C p.w1 p.b1 v))

/-- Mean over the `C` channels, for `nn.LayerNorm`. -/
def lnMean (C : ℕ) (v : Vec) : ℚ := (∑ c ∈ Finset.range C, v c) / (C : ℚ)

/-- Biased variance over the `C` channels, for `nn.LayerNorm`. -/
def lnVar (C : ℕ) (v : Vec) : ℚ :=
  (∑ c ∈ Finset.range C, (v c - lnMean C v) ^ 2) / (C : ℚ)

/-- Normalization `nn.LayerNorm(C)` with weight `g` and bias `b` (lines 136-137, 158);
`invStd` abstracts `var ↦ (var + eps) ** -0.5`. -/
def layerNorm (invStd : ℚ → ℚ) (C : ℕ) (g b : Vec) (v : Vec) : Vec :=
  fun c => g c * ((v c - lnMean C v) * invStd (lnVar C v)) + b c

/-- Weights of one `Block` (lines 131-137). -/
structure BlockParams where
  sa : MHAParams
  ff : FFParams
  ln1g : Vec
  ln1b : Vec
  ln2g : Vec
  ln2b : Vec

/-- Line 140 of `Block.forward`: `x = x + self.sa(self.ln1(x))`. -/
def blockMid (fexp invStd : ℚ → ℚ) (C nh hs T : ℕ) (bp : BlockParams)
    (x : ℕ → Vec) : ℕ → Vec :=
  fun i c =>
    x i c + mhaOut fexp C nh hs T bp.sa
      (fun k => layerNorm invStd C bp.ln1g bp.ln1b (x k)) i c

/-- Body of `Block.forward` (lines 139-142):
`x = x + self.sa(self.ln1(x)); x = x + self.ffwd(self.ln2(x))`. -/
def blockOut (fexp invStd : ℚ → ℚ) (C nh hs T : ℕ) (bp : BlockParams)
    (x : ℕ → Vec) : ℕ → Vec :=
  fun i c =>
    blockMid fexp invStd C nh hs T bp x i c
      + ffOut C bp.ff
          (layerNorm invStd C bp.ln2g bp.ln2b
            (blockMid fexp invStd C nh hs T bp x i)) c

/-- All weights and hyperparameters of `Bigram_Language_Model`
(lines 147-160).  `hs = n_embd // n_head` and `n_head` divides `n_embd` in
the source configuration, so the embedding width is `nh * hs`. -/
structure GPT where
  V : ℕ
  ctx : ℕ
  nh : ℕ
  hs : ℕ
  nlayer : ℕ
  tokEmb : ℕ → Vec
  posEmb : ℕ → Vec
  blocks : ℕ → BlockParams
  lnfg : Vec
  lnfb : Vec
  lmW : ℕ → Vec
  lmB : Vec
  fexp : ℚ → ℚ
  flog : ℚ → ℚ
  invStd : ℚ → ℚ

/-- The embedding width `n_embd = n_head * head_size`. -/
def GPT.nembd (M : GPT) : ℕ := M.nh * M.hs

/-- Lines 166-169: token embedding plus (broadcast) position embedding. -/
def embedX (M : GPT) (toks : ℕ → ℕ) : ℕ → Vec :=
  fun i c => M.tokEmb (toks i) c + M.posEmb i c

/-- Line 170: the first `l` transformer blocks applied in order. -/
def stack (M : GPT) (T : ℕ) (toks : ℕ → ℕ) : ℕ → ℕ → Vec
  | 0 => embedX M toks
  | l + 1 =>
      blockOut M.fexp M.invStd M.nembd M.nh M.hs T (M.blocks l)
        (stack M T toks l)

/-- Lines 170-172: all blocks, final layer norm, and `lm_head`; the logits
for position `i` as a vector over the vocabulary. -/
def coreLogits (M : GPT) (T : ℕ) (toks : ℕ → ℕ) (i : ℕ) : Vec :=
  linB M.nembd M.lmW M.lmB
    (layerNorm M.invStd M.nembd M.lnfg M.lnfb (stack M T toks M.nlayer i))

/-- The logits of one batch row as a `T × V` list of lists. -/
def logitsRow (M : GPT) (toks : List ℕ) : List (List ℚ) :=
  (List.range toks.length).map fun i =>
    (List.range M.V).map fun v =>
      coreLogits M toks.length (fun k => toks.getD k 0) i v

/-- Precondition of the forward pass on one row: positions `0..T-1` must
index the `blocksize`-row position-embedding table (line 168) and every
token id must index the `vocab_size`-row token-embedding table (line 166);
violating either raises `IndexError`. -/
def okRow (M : GPT) (toks : List ℕ) : Prop :=
  toks.length ≤ M.ctx ∧ ∀ t ∈ toks, t < M.V

instance (M : GPT) (toks : List ℕ) : Decidable (okRow M toks) := by
  unfold okRow; infer_instance

/-- Forward pass of one batch row without loss: `some` logits, or `none`
when an embedding lookup raises (lines 162-172). -/
def forwardRow (M : GPT) (toks : List ℕ) : Option (List (List ℚ)) :=
  if okRow M toks then some (logitsRow M toks) else none

/-- Softmax of a list of logits (`F.softmax(..., dim=-1)`, line 194). -/
def softmaxList (fexp : ℚ → ℚ) (l : List ℚ) : List ℚ :=
  l.map fun z => fexp z / (l.map fexp).sum

/-- Cross-entropy of one flattened sample (line 181):
`-log softmax(l)[t]`. -/
def ceSample (M : GPT) (l : List ℚ) (t : ℕ) : ℚ :=
  -(M.flog (M.fexp (l.getD t 0) / (l.map M.fexp).sum))

/-- Lines 178-181: flatten batch and time axes to `B*T` samples and take
the mean cross-entropy. -/
def lossVal (M : GPT) (L : List (List (List ℚ))) (tg : List (List ℕ)) : ℚ :=
  ((L.flatten.zip tg.flatten).map fun p => ceSample M p.1 p.2).sum
    / (L.flatten.length : ℚ)

/-- Precondition of the loss: `targets.view(B*T)` needs exactly `B*T`
target entries, and `F.cross_entropy` needs every class index in
`[0, C)` (lines 179-181). -/
def okTargets (M : GPT) (L : List (List (List ℚ))) (tg : List (List ℕ)) : Prop :=
  tg.flatten.length = L.flatten.length ∧ ∀ r ∈ tg, ∀ t ∈ r, t < M.V

instance (M : GPT) (L : List (List (List ℚ))) (tg : List (List ℕ)) :
    Decidable (okTargets M L tg) := by
  unfold okTargets; infer_instance

/-- Shape of the logits value that line 183 returns.  Without targets the
`(B, T, C)` tensor of line 172 comes back unchanged (`btc`); with targets,
line 179 reassigns `logits = logits.view(B*T, C)`, so the returned logits
are the batch-and-time-flattened `(B*T, C)` view (`flat`). -/
inductive LogitsOut where
  | btc (L : List (List (List ℚ)))
  | flat (L : List (List ℚ))

/-- Tests whether the returned logits still carry the `(B, T, C)` shape. -/
def LogitsOut.isBTC : LogitsOut → Bool
  | .btc _ => true
  | .flat _ => false

/-- Body of `Bigram_Language_Model.forward` (lines 162-183) on a batch given as a
list of rows: logits for every row, and the mean cross-entropy loss
exactly when targets are passed.  In the targets branch the returned
logits are the flattened `(B*T, C)` view produced by line 179 (a
row-major flatten of the batch and time axes, i.e. `List.flatten`). -/
def forward (M : GPT) (idx : List (List ℕ)) (targets : Option (List (List ℕ))) :
    Option (LogitsOut × Option ℚ) :=
  match idx.mapM (forwardRow M) with
  | none => none
  | some L =>
    match targets with
    | none => some (.btc L, none)
    | some tg =>
        if okTargets M L tg then some (.flat L.flatten, some (lossVal M L tg))
        else none

/-- Cropping `idx[:, -blocksize:]` (line 188): the last `n` entries of a row. -/
def lastN (n : ℕ) (l : List ℕ) : List ℕ := l.drop (l.length - n)

/-- Body of `Bigram_Language_Model.generate` (lines 185-199) on one batch row.
`sample` abstracts `torch.multinomial(probs, num_samples=1)` (line 196):
given the softmax probabilities it returns the sampled class index.  Each
iteration crops the context, runs the forward pass, takes the logits of
the last time step (`none` if there is none: `logits[:, -1, :]` raises on
an empty time axis), samples, and appends. -/
def generate (M : GPT) (sample : List ℚ → ℕ) :
    List ℕ → ℕ → Option (List ℕ)
  | idx, 0 => some idx
  | idx, n + 1 =>
    match forwardRow M (lastN M.ctx idx) with
    | none => none
    | some L =>
      match L.getLast? with
      | none => none
      | some lrow =>
          generate M sample (idx ++ [sample (softmaxList M.fexp lrow)]) n

/-! ### The vocabulary codec (lines 29-36) -/

/-- Insert a character into an ascending list, keeping it ascending. -/
def insertAsc (c : Char) : List Char → List Char
  | [] => [c]
  | d :: rest => if c ≤ d then c :: d :: rest else d :: insertAsc c rest

/-- Ascending insertion sort on characters, extensionally the `sorted` of
Python. -/
def sortAsc : List Char → List Char
  | [] => []
  | c :: rest => insertAsc c (sortAsc rest)

/-- Line 29: `sorted(list(set(text)))` — deduplicate, then sort by code
point. -/
def charsOf (text : List Char) : List Char :=
  sortAsc text.dedup

/-- First index of a character in the vocabulary list: the dictionary
`s_to_i` of line 33 (`none` models a `KeyError`). -/
def lookupIdx (c : Char) : List Char → Option ℕ
  | [] => none
  | d :: rest => if d = c then some 0 else (lookupIdx c rest).map (· + 1)

/-- Encoding (line 35): `[s_to_i[c] for c in s]`, failing on a character
outside the vocabulary. -/
def encode (text : List Char) (s : List Char) : Option (List ℕ) :=
  s.mapM fun c => lookupIdx c (charsOf text)

/-- Decoding (line 36): `''.join([i_to_s[i] for i in n])`, failing on an
id outside the vocabulary range. -/
def decode (text : List Char) (ns : List ℕ) : Option (List Char) :=
  ns.mapM fun i => (charsOf text)[i]?

/-! ### Causality helper lemmas: every quantity at position `i` depends
only on the input at positions `0..i`. -/

theorem expScore_congr (fexp : ℚ → ℚ) (C hs : ℕ) (p : HeadParams)
    {x y : ℕ → Vec} {i : ℕ} (h : ∀ k, k ≤ i → x k = y k) (j : ℕ) :
    expScore fexp C hs p x i j = expScore fexp C hs p y i j := by
  unfold expScore maskedScore headScore
  by_cases hji : j ≤ i
  · rw [if_pos hji, if_pos hji, h i le_rfl, h j hji]
  · rw [if_neg hji, if_neg hji]

theorem weiDenom_congr (fexp : ℚ → ℚ) (C hs T : ℕ) (p : HeadParams)
    {x y : ℕ → Vec} {i : ℕ} (h : ∀ k, k ≤ i → x k = y k) :
    weiDenom fexp C hs T p x i = weiDenom fexp C hs T p y i := by
  unfold weiDenom
  exact Finset.sum_congr rfl fun j _ => expScore_congr fexp C hs p h j

theorem wei_congr (fexp : ℚ → ℚ) (C hs T : ℕ) (p : HeadParams)
    {x y : ℕ → Vec} {i : ℕ} (h : ∀ k, k ≤ i → x k = y k) (j : ℕ) :
    wei fexp C hs T p x i j = wei fexp C hs T p y i j := by
  unfold wei
  rw [expScore_congr fexp C hs p h j, weiDenom_congr fexp C hs T p h]

theorem wei_eq_zero_of_lt (fexp : ℚ → ℚ) (C hs T : ℕ) (p : HeadParams)
    (x : ℕ → Vec) {i j : ℕ} (hij : i < j) :
    wei fexp C hs T p x i j = 0 := by
  unfold wei expScore maskedScore
  rw [if_neg (by omega)]
  simp

theorem headOut_congr (fexp : ℚ → ℚ) (C hs T : ℕ) (p : HeadParams)
    {x y : ℕ → Vec} {i : ℕ} (h : ∀ k, k ≤ i → x k = y k) :
    headOut fexp C hs T p x i = headOut fexp C hs T p y i := by
  funext v
  unfold headOut
  refine Finset.sum_congr rfl fun j _ => ?_
  by_cases hji : j ≤ i
  · rw [wei_congr fexp C hs T p h j, h j hji]
  · rw [wei_eq_zero_of_lt fexp C hs T p x (by omega),
      wei_eq_zero_of_lt fexp C hs T p y (by omega), zero_mul, zero_mul]

theorem mhaOut_congr (fexp : ℚ → ℚ) (C nh hs T : ℕ) (p : MHAParams)
    {x y : ℕ → Vec} {i : ℕ} (h : ∀ k, k ≤ i → x k = y k) :
    mhaOut fexp C nh hs T p x i = mhaOut fexp C nh hs T p y i := by
  unfold mhaOut
  have hcat : concatHeads fexp C hs T p x i = concatHeads fexp C hs T p y i := by
    funext f
    unfold concatHeads
    rw [headOut_congr fexp C hs T (p.heads (f / hs)) h]
  rw [hcat]

theorem blockMid_congr (fexp invStd : ℚ → ℚ) (C nh hs T : ℕ)
    (bp : BlockParams) {x y : ℕ → Vec} {i : ℕ}
    (h : ∀ k, k ≤ i → x k = y k) :
    blockMid fexp invStd C nh hs T bp x i = blockMid fexp invStd C nh hs T bp y i := by
  funext c
  unfold blockMid
  rw [h i le_rfl,
    mhaOut_congr fexp C nh hs T bp.sa (fun k hk => by rw [h k hk])]

theorem blockOut_congr (fexp invStd : ℚ → ℚ) (C nh hs T : ℕ)
    (bp : BlockParams) {x y : ℕ → Vec} {i : ℕ}
    (h : ∀ k, k ≤ i → x k = y k) :
    blockOut fexp invStd C nh hs T bp x i = blockOut fexp invStd C nh hs T bp y i := by
  have hmid : ∀ k, k ≤ i →
      blockMid fexp invStd C nh hs T bp x k = blockMid fexp invStd C nh hs T bp y k :=
    fun k hk => blockMid_congr fexp invStd C nh hs T bp (fun m hm => h m (hm.trans hk))
  funext c
  unfold blockOut
  rw [hmid i le_rfl]

theorem stack_congr (M : GPT) (T : ℕ) {toks toks' : ℕ → ℕ} {i : ℕ}
    (h : ∀ k, k ≤ i → toks k = toks' k) :
    ∀ l, ∀ k, k ≤ i → stack M T toks l k = stack M T toks' l k := by
  intro l
  induction l with
  | zero =>
      intro k hk
      unfold stack embedX
      rw [h k hk]
  | succ l ih =>
      intro k hk
      unfold stack
      exact blockOut_congr M.fexp M.invStd M.nembd M.nh M.hs T (M.blocks l)
        (fun m hm => ih m (hm.trans hk))

theorem coreLogits_congr (M : GPT) (T : ℕ) {toks toks' : ℕ → ℕ} {i : ℕ}
    (h : ∀ k, k ≤ i → toks k = toks' k) :
    coreLogits M T toks i = coreLogits M T toks' i := by
  unfold coreLogits
  rw [stack_congr M T h M.nlayer i le_rfl]

/-! ### Batch-level helper lemmas -/

theorem mapM_forwardRow_ok (M : GPT) :
    ∀ idx : List (List ℕ), (∀ r ∈ idx, okRow M r) →
      idx.mapM (forwardRow M) = some (idx.map (logitsRow M)) := by
  intro idx
  induction idx with
  | nil => intro _; rfl
  | cons r rest ih =>
      intro h
      have hr : okRow M r := h r (by simp)
      have hrest := ih fun s hs => h s (by simp [hs])
      have hrow : forwardRow M r = some (logitsRow M r) := by
        unfold forwardRow
        rw [if_pos hr]
      rw [List.mapM_cons, hrow, hrest]
      rfl

theorem getD_logitsRow (M : GPT) (r : List ℕ) (i : ℕ) :
    (logitsRow M r).getD i [] =
      if i < r.length then
        (List.range M.V).map fun v =>
          coreLogits M r.length (fun k => r.getD k 0) i v
      else [] := by
  unfold logitsRow
  rw [List.getD_eq_getElem?_getD, List.getElem?_map]
  by_cases hi : i < r.length
  · rw [List.getElem?_range hi, if_pos hi]
    rfl
  · rw [List.getElem?_eq_none (by simpa using Nat.le_of_not_lt hi), if_neg hi]
    rfl

/-- C1: causality of the forward pass.  For two batches of the same batch
size whose rows are pairwise valid (length at most `max_context_length`,
token ids inside the vocabulary) and agree on all positions `k ≤ i` — in
particular when they differ only at positions `j > i` — the logits at
position `i` of every row coincide: logits at position `i` are a function
of the tokens at positions `0..i` only. -/
theorem c1_forward_causal (M : GPT) (idx idx' : List (List ℕ)) (i : ℕ)
    (hB : idx.length = idx'.length)
    (h : ∀ p ∈ idx.zip idx', p.1.length = p.2.length ∧ p.1.length ≤ M.ctx ∧
      (∀ t ∈ p.1, t < M.V) ∧ (∀ t ∈ p.2, t < M.V) ∧
      ∀ k, k ≤ i → p.1.getD k 0 = p.2.getD k 0) :
    ∃ L L', forward M idx none = some (.btc L, none) ∧
      forward M idx' none = some (.btc L', none) ∧
      ∀ q ∈ L.zip L', q.1.getD i [] = q.2.getD i [] := by
  have hzlen : (idx.zip idx').length = idx.length := by
    rw [List.length_zip, hB, Nat.min_self]
  have hmem : ∀ b (hb : b < idx.length),
      (idx.get ⟨b, hb⟩, idx'.get ⟨b, hB ▸ hb⟩) ∈ idx.zip idx' := by
    intro b hb
    have hg : (idx.zip idx').get ⟨b, hzlen ▸ hb⟩
        = (idx.get ⟨b, hb⟩, idx'.get ⟨b, hB ▸ hb⟩) := by
      simp [List.get_eq_getElem, List.getElem_zip]
    exact hg ▸ List.get_mem _ _ _
  have hok : ∀ r ∈ idx, okRow M r := by
    intro r hr
    obtain ⟨b, hb, rfl⟩ := List.mem_iff_getElem.mp hr
    obtain ⟨_, hctx, hv, _, _⟩ := h _ (hmem b hb)
    exact ⟨hctx, hv⟩
  have hok' : ∀ r ∈ idx', okRow M r := by
    intro r hr
    obtain ⟨b, hb, rfl⟩ := List.mem_iff_getElem.mp hr
    have hb' : b < idx.length := hB ▸ hb
    obtain ⟨hlen, hctx, _, hv, _⟩ := h _ (hmem b hb')
    exact ⟨hlen ▸ hctx, hv⟩
  refine ⟨idx.map (logitsRow M), idx'.map (logitsRow M), ?_, ?_, ?_⟩
  · unfold forward
    rw [mapM_forwardRow_ok M idx hok]
  · unfold forward
    rw [mapM_forwardRow_ok M idx' hok']
  · intro q hq
    rw [List.zip_map] at hq
    obtain ⟨p, hp, rfl⟩ := List.mem_map.mp hq
    obtain ⟨hlen, _, _, _, hagree⟩ := h p hp
    show (logitsRow M p.1).getD i [] = (logitsRow M p.2).getD i []
    rw [getD_logitsRow, getD_logitsRow, ← hlen]
    by_cases hi : i < p.1.length
    · rw [if_pos hi, if_pos hi]
      refine List.map_congr_left fun v _ => ?_
      rw [hlen, coreLogits_congr M p.2.length hagree]
    · rw [if_neg hi, if_neg hi]

/-- Witness input for causality: the two batches agree at position 0 and
differ at position 1. -/
def wIdx : List (List ℕ) := [[0, 1]]

/-- Second witness batch, same prefix, different suffix token. -/
def wIdx' : List (List ℕ) := [[0, 0]]

/-- A concrete tiny model instance used by witnesses: vocabulary 2,
context 2, one head of size 1, one layer, constant weights. -/
def wGPT : GPT where
  V := 2
  ctx := 2
  nh := 1
  hs := 1
  nlayer := 1
  tokEmb := fun t _ => (t : ℚ)
  posEmb := fun i _ => (i : ℚ)
  blocks := fun _ =>
    { sa :=
        { heads := fun _ => ⟨fun _ _ => 1, fun _ _ => 1, fun _ _ => 1⟩
          projW := fun _ _ => 1
          projB := fun _ => 0 }
      ff := ⟨fun _ _ => 1, fun _ => 0, fun _ _ => 1, fun _ => 0⟩
      ln1g := fun _ => 1
      ln1b := fun _ => 0
      ln2g := fun _ => 1
      ln2b := fun _ => 0 }
  lnfg := fun _ => 1
  lnfb := fun _ => 0
  lmW := fun _ _ => 1
  lmB := fun _ => 0
  fexp := fun _ => 1
  flog := fun _ => 0
  invStd := fun _ => 1

theorem c1_forward_causal_witness :
    wIdx.length = wIdx'.length ∧
    (∀ p ∈ wIdx.zip wIdx', p.1.length = p.2.length ∧ p.1.length ≤ wGPT.ctx ∧
      (∀ t ∈ p.1, t < wGPT.V) ∧ (∀ t ∈ p.2, t < wGPT.V) ∧
      ∀ k, k ≤ 0 → p.1.getD k 0 = p.2.getD k 0) ∧
    (∃ L L', forward wGPT wIdx none = some (.btc L, none) ∧
      forward wGPT wIdx' none = some (.btc L', none) ∧
      ∀ q ∈ L.zip L', q.1.getD 0 [] = q.2.getD 0 []) :=
  ⟨by decide, by decide, c1_forward_causal wGPT wIdx wIdx' 0 (by decide) (by decide)⟩

/-! ### C2: the affinity scaling factor -/

/-- Constant head weights for the C2 counterexample. -/
def cHead : HeadParams := ⟨fun _ _ => 1, fun _ _ => 1, fun _ _ => 1⟩

/-- Constant input sequence for the C2 counterexample. -/
def cX : ℕ → Vec := fun _ _ => 1

/-- C2 counterexample: with embedding dimension 4 and head size 1, the raw
affinity score the code computes (scaled by `C ** -0.5` with
`C = x.shape[-1] = 4`, giving 8) differs from the spec's formula scaled by
`1/sqrt(head_size) = 1` (giving 16). -/
theorem c2_affinity_counterexample :
    headScore 4 1 cHead cX 0 0 ≠ specAffinity 4 1 1 cHead cX 0 0 := by
  have h4 : Nat.sqrt 4 = 2 := Nat.sqrt_eq 2
  simp only [headScore, specAffinity, linNB, dot, invSqrtQ, cHead, cX,
    Finset.sum_range_succ, Finset.sum_range_zero, h4, Nat.sqrt_one]
  norm_num

/-- C2 (amended): in every attention head the raw affinity scores are the
dot products of the projected queries and keys multiplied by
`1/sqrt(embedding_dim)` — the feature dimension `C` of the head's input
(`n_embd`), not the head's projection dimension `head_size`. -/
theorem c2_affinity_scaled_by_embedding_dim (C hs : ℕ) (p : HeadParams)
    (x : ℕ → Vec) (i j : ℕ) :
    headScore C hs p x i j = specAffinity C hs C p x i j := rfl

/-! ### C8: transformer block structure -/

/-- C8: every transformer block is the pre-normalized residual
composition: first `x + MultiHeadAttention(LayerNorm1(x))`, then that
intermediate plus `FeedForward(LayerNorm2(intermediate))`. -/
theorem c8_block_prenorm_residual (fexp invStd : ℚ → ℚ) (C nh hs T : ℕ)
    (bp : BlockParams) (x : ℕ → Vec) :
    blockOut fexp invStd C nh hs T bp x = fun i c =>
      (x i c
        + mhaOut fexp C nh hs T bp.sa
            (fun k => layerNorm invStd C bp.ln1g bp.ln1b (x k)) i c)
      + ffOut C bp.ff
          (layerNorm invStd C bp.ln2g bp.ln2b fun c2 =>
            x i c2
              + mhaOut fexp C nh hs T bp.sa
                  (fun k => layerNorm invStd C bp.ln1g bp.ln1b (x k)) i c2) c :=
  rfl

/-! ### Shape and loss lemmas for the batch forward pass -/

theorem length_logitsRow (M : GPT) (r : List ℕ) :
    (logitsRow M r).length = r.length := by
  unfold logitsRow
  rw [List.length_map, List.length_range]

theorem mem_logitsRow_length (M : GPT) (r : List ℕ) :
    ∀ e ∈ logitsRow M r, e.length = M.V := by
  intro e he
  unfold logitsRow at he
  obtain ⟨i, _, rfl⟩ := List.mem_map.mp he
  rw [List.length_map, List.length_range]

theorem flatten_length_const {α : Type} (T : ℕ) :
    ∀ X : List (List α), (∀ r ∈ X, r.length = T) →
      X.flatten.length = X.length * T := by
  intro X
  induction X with
  | nil => intro _; simp
  | cons a X ih =>
      intro h
      rw [List.flatten_cons, List.length_append, h a (by simp),
        ih fun r hr => h r (by simp [hr]), List.length_cons]
      ring

theorem sum_map_zip_flatten {α β : Type} (f : α × β → ℚ) :
    ∀ (A : List (List α)) (Bl : List (List β)),
      (∀ p ∈ A.zip Bl, p.1.length = p.2.length) →
      ((A.flatten.zip Bl.flatten).map f).sum
        = ((A.zip Bl).map fun pr => ((pr.1.zip pr.2).map f).sum).sum := by
  intro A
  induction A with
  | nil => intro Bl _; simp
  | cons a A ih =>
      intro Bl hp
      cases Bl with
      | nil => simp
      | cons b Bl' =>
          have hab : a.length = b.length := hp (a, b) (by simp)
          simp only [List.flatten_cons, List.zip_cons_cons, List.map_cons,
            List.sum_cons]
          rw [List.zip_append hab, List.map_append, List.sum_append,
            ih Bl' fun p hmem => hp p (by simp [hmem])]

theorem mapM_forwardRow_none (M : GPT) :
    ∀ idx : List (List ℕ), (∃ r ∈ idx, ¬ okRow M r) →
      idx.mapM (forwardRow M) = none := by
  intro idx
  induction idx with
  | nil => rintro ⟨r, hr, _⟩; cases hr
  | cons a rest ih =>
      rintro ⟨r, hr, hbad⟩
      rw [List.mapM_cons]
      rcases List.mem_cons.mp hr with rfl | hmem
      · have : forwardRow M r = none := by
          unfold forwardRow
          rw [if_neg hbad]
        rw [this]
        rfl
      · cases hfa : forwardRow M a with
        | none => rfl
        | some L =>
            rw [ih ⟨r, hmem, hbad⟩]
            rfl

/-- C3 counterexample: at the concrete batch `[[0, 1]]` with targets
`[[1, 0]]` (batch 1, `T = 2`), the with-targets forward call does not
return `(batch, T, vocab_size)`-shaped logits: line 179's
`logits.view(B*T, C)` reassignment makes it return the flattened
`(B*T, C)` view, while the no-targets call does return the
`(batch, T, vocab_size)` tensor. -/
theorem c3_logits_shape_counterexample :
    (forward wGPT [[0, 1]] (some [[1, 0]])).map (fun r => r.1.isBTC)
        = some false ∧
      (forward wGPT [[0, 1]] none).map (fun r => r.1.isBTC) = some true := by
  have hok : ∀ r ∈ ([[0, 1]] : List (List ℕ)), okRow wGPT r := by decide
  have hmapM := mapM_forwardRow_ok wGPT [[0, 1]] hok
  have hokt : okTargets wGPT (List.map (logitsRow wGPT) [[0, 1]]) [[1, 0]] := by
    refine ⟨?_, by decide⟩
    simp [logitsRow]
  constructor
  · unfold forward
    rw [hmapM]
    simp only [if_pos hokt, Option.map_some']
    rfl
  · unfold forward
    rw [hmapM]
    rfl

/-- C3 (amended): for every rectangular batch with at least one row, row
length `T` with `1 ≤ T ≤ max_context_length`, and in-vocabulary token
ids, the forward pass succeeds; without targets the returned logits have
shape `(batch, T, vocab_size)`, while with a matching batch of valid
targets the returned logits are the batch-and-time-flattened
`(batch*T, vocab_size)` view of that same tensor (line 179), alongside
the loss. -/
theorem c3_forward_logits_shape (M : GPT) (idx tg : List (List ℕ)) (T : ℕ)
    (_hB : 0 < idx.length) (_hT : 1 ≤ T) (hctx : T ≤ M.ctx)
    (hrows : ∀ r ∈ idx, r.length = T)
    (hval : ∀ r ∈ idx, ∀ t ∈ r, t < M.V)
    (htg : tg.length = idx.length)
    (htgrows : ∀ r ∈ tg, r.length = T)
    (htgval : ∀ r ∈ tg, ∀ t ∈ r, t < M.V) :
    ∃ L ℓ, forward M idx none = some (.btc L, none) ∧
      forward M idx (some tg) = some (.flat L.flatten, some ℓ) ∧
      L.length = idx.length ∧ (∀ r ∈ L, r.length = T) ∧
      (∀ r ∈ L, ∀ e ∈ r, e.length = M.V) ∧
      L.flatten.length = idx.length * T ∧
      ∀ e ∈ L.flatten, e.length = M.V := by
  have hok : ∀ r ∈ idx, okRow M r :=
    fun r hr => ⟨(hrows r hr) ▸ hctx, hval r hr⟩
  have hmapM := mapM_forwardRow_ok M idx hok
  set L := idx.map (logitsRow M) with hL
  have hLrows : ∀ r ∈ L, r.length = T := by
    intro r hr
    obtain ⟨s, hs, rfl⟩ := List.mem_map.mp hr
    rw [length_logitsRow, hrows s hs]
  have hLlen : L.length = idx.length := List.length_map idx _
  have hokt : okTargets M L tg := by
    refine ⟨?_, htgval⟩
    rw [flatten_length_const T tg htgrows, flatten_length_const T L hLrows,
      hLlen, htg]
  have hVentries : ∀ r ∈ L, ∀ e ∈ r, e.length = M.V := by
    intro r hr
    obtain ⟨s, _, rfl⟩ := List.mem_map.mp hr
    exact mem_logitsRow_length M s
  refine ⟨L, lossVal M L tg, ?_, ?_, hLlen, hLrows, hVentries, ?_, ?_⟩
  · unfold forward
    rw [hmapM]
  · unfold forward
    rw [hmapM]
    simp only [if_pos hokt]
  · rw [flatten_length_const T L hLrows, hLlen]
  · intro e he
    obtain ⟨r, hr, hem⟩ := List.mem_flatten.mp he
    exact hVentries r hr e hem

theorem c3_forward_logits_shape_witness :
    (0 < ([[0, 1]] : List (List ℕ)).length ∧ 1 ≤ 2 ∧ 2 ≤ wGPT.ctx ∧
      (∀ r ∈ ([[0, 1]] : List (List ℕ)), r.length = 2) ∧
      (∀ r ∈ ([[0, 1]] : List (List ℕ)), ∀ t ∈ r, t < wGPT.V) ∧
      ([[1, 0]] : List (List ℕ)).length = ([[0, 1]] : List (List ℕ)).length ∧
      (∀ r ∈ ([[1, 0]] : List (List ℕ)), r.length = 2) ∧
      (∀ r ∈ ([[1, 0]] : List (List ℕ)), ∀ t ∈ r, t < wGPT.V)) ∧
    (∃ L ℓ, forward wGPT [[0, 1]] none = some (.btc L, none) ∧
      forward wGPT [[0, 1]] (some [[1, 0]]) = some (.flat L.flatten, some ℓ) ∧
      L.length = ([[0, 1]] : List (List ℕ)).length ∧
      (∀ r ∈ L, r.length = 2) ∧ (∀ r ∈ L, ∀ e ∈ r, e.length = wGPT.V) ∧
      L.flatten.length = ([[0, 1]] : List (List ℕ)).length * 2 ∧
      ∀ e ∈ L.flatten, e.length = wGPT.V) :=
  ⟨by decide,
    c3_forward_logits_shape wGPT [[0, 1]] [[1, 0]] 2 (by decide) (by decide)
      (by decide) (by decide) (by decide) (by decide) (by decide) (by decide)⟩

/-- C6: a forward call with a row longer than `max_context_length`, or
with a token id outside `[0, vocab_size)`, fails (the embedding lookup
raises) instead of truncating the row or wrapping the id — with or
without targets. -/
theorem c6_forward_rejects (M : GPT) (idx : List (List ℕ))
    (targets : Option (List (List ℕ)))
    (h : ∃ r ∈ idx, M.ctx < r.length ∨ ∃ t ∈ r, M.V ≤ t) :
    forward M idx targets = none := by
  obtain ⟨r, hr, hbad⟩ := h
  have : ¬ okRow M r := by
    unfold okRow
    rcases hbad with hlong | ⟨t, ht, hbig⟩
    · exact fun hok => absurd hok.1 (by omega)
    · exact fun hok => absurd (hok.2 t ht) (by omega)
  unfold forward
  rw [mapM_forwardRow_none M idx ⟨r, hr, this⟩]

theorem c6_forward_rejects_witness :
    (∃ r ∈ ([[0, 1, 0]] : List (List ℕ)),
      wGPT.ctx < r.length ∨ ∃ t ∈ r, wGPT.V ≤ t) ∧
    forward wGPT [[0, 1, 0]] none = none :=
  ⟨by decide, c6_forward_rejects wGPT [[0, 1, 0]] none (by decide)⟩

/-- C7: with targets the forward pass returns the mean cross-entropy over
all `batch * T` positions — the batch and time axes flattened into one
sample axis, the same flattening line 179 applies to the returned
logits — and without targets it succeeds with an absent loss. -/
theorem c7_forward_loss_mean (M : GPT) (idx tg : List (List ℕ)) (T : ℕ)
    (hctx : T ≤ M.ctx)
    (hrows : ∀ r ∈ idx, r.length = T)
    (hval : ∀ r ∈ idx, ∀ t ∈ r, t < M.V)
    (htg : tg.length = idx.length)
    (htgrows : ∀ r ∈ tg, r.length = T)
    (htgval : ∀ r ∈ tg, ∀ t ∈ r, t < M.V) :
    ∃ L, forward M idx none = some (.btc L, none) ∧
      forward M idx (some tg) = some (.flat L.flatten, some
        (((L.zip tg).map fun pr =>
            ((pr.1.zip pr.2).map fun q => ceSample M q.1 q.2).sum).sum
          / ((idx.length * T : ℕ) : ℚ))) := by
  have hok : ∀ r ∈ idx, okRow M r :=
    fun r hr => ⟨(hrows r hr) ▸ hctx, hval r hr⟩
  have hmapM := mapM_forwardRow_ok M idx hok
  set L := idx.map (logitsRow M) with hL
  have hLrows : ∀ r ∈ L, r.length = T := by
    intro r hr
    obtain ⟨s, hs, rfl⟩ := List.mem_map.mp hr
    rw [length_logitsRow, hrows s hs]
  have hLlen : L.length = idx.length := List.length_map idx _
  have hLflat : L.flatten.length = idx.length * T := by
    rw [flatten_length_const T L hLrows, hLlen]
  have hokt : okTargets M L tg := by
    refine ⟨?_, htgval⟩
    rw [flatten_length_const T tg htgrows, flatten_length_const T L hLrows,
      hLlen, htg]
  have hzip : ∀ p ∈ L.zip tg, p.1.length = p.2.length := by
    rintro ⟨u, w⟩ hp
    obtain ⟨hu, hw⟩ := List.of_mem_zip hp
    rw [hLrows u hu, htgrows w hw]
  have hloss : lossVal M L tg =
      ((L.zip tg).map fun pr =>
          ((pr.1.zip pr.2).map fun q => ceSample M q.1 q.2).sum).sum
        / ((idx.length * T : ℕ) : ℚ) := by
    unfold lossVal
    rw [hLflat, sum_map_zip_flatten (fun p => ceSample M p.1 p.2) L tg hzip]
  refine ⟨L, ?_, ?_⟩
  · unfold forward
    rw [hmapM]
  · unfold forward
    rw [hmapM]
    simp only [if_pos hokt, hloss]

theorem c7_forward_loss_mean_witness :
    (2 ≤ wGPT.ctx ∧
      (∀ r ∈ ([[0, 1]] : List (List ℕ)), r.length = 2) ∧
      (∀ r ∈ ([[0, 1]] : List (List ℕ)), ∀ t ∈ r, t < wGPT.V) ∧
      ([[1, 0]] : List (List ℕ)).length = ([[0, 1]] : List (List ℕ)).length ∧
      (∀ r ∈ ([[1, 0]] : List (List ℕ)), r.length = 2) ∧
      (∀ r ∈ ([[1, 0]] : List (List ℕ)), ∀ t ∈ r, t < wGPT.V)) ∧
    (∃ L, forward wGPT [[0, 1]] none = some (.btc L, none) ∧
      forward wGPT [[0, 1]] (some [[1, 0]]) = some (.flat L.flatten, some
        (((L.zip [[1, 0]]).map fun pr =>
            ((pr.1.zip pr.2).map fun q => ceSample wGPT q.1 q.2).sum).sum
          / ((([[0, 1]] : List (List ℕ)).length * 2 : ℕ) : ℚ)))) :=
  ⟨by decide,
    c7_forward_loss_mean wGPT [[0, 1]] [[1, 0]] 2 (by decide) (by decide)
      (by decide) (by decide) (by decide) (by decide)⟩

/-! ### C5: attention weights are a probability distribution -/

theorem expScore_nonneg (fexp : ℚ → ℚ) (hfexp : ∀ z, 0 < fexp z)
    (C hs : ℕ) (p : HeadParams) (x : ℕ → Vec) (i j : ℕ) :
    0 ≤ expScore fexp C hs p x i j := by
  unfold expScore maskedScore
  by_cases hji : j ≤ i
  · rw [if_pos hji]
    exact le_of_lt (hfexp _)
  · rw [if_neg hji]
    exact le_refl 0

theorem weiDenom_pos (fexp : ℚ → ℚ) (hfexp : ∀ z, 0 < fexp z)
    (C hs T : ℕ) (p : HeadParams) (x : ℕ → Vec) {i : ℕ} (hi : i < T) :
    0 < weiDenom fexp C hs T p x i := by
  unfold weiDenom
  refine Finset.sum_pos' (fun j _ => expScore_nonneg fexp hfexp C hs p x i j)
    ⟨i, Finset.mem_range.mpr hi, ?_⟩
  unfold expScore maskedScore
  rw [if_pos le_rfl]
  exact hfexp _

/-- C5: for a sequence of length `T ≤ max_context_length` and any query
position `i < T`, the masked affinity row of the head has a non-`-inf`
entry (the diagonal `j = i` is unmasked), and — with `exp` positive, as
the real exponential is, and dropout inactive — the attention weights over
the unmasked key positions `j ≤ i` are nonnegative and sum to 1. -/
theorem c5_attention_row_normalized (fexp : ℚ → ℚ) (hfexp : ∀ z, 0 < fexp z)
    (C hs T : ℕ) (p : HeadParams) (x : ℕ → Vec) (i : ℕ) (hi : i < T)
    (_hctx : T ≤ 32) :
    (maskedScore C hs p x i i).isSome ∧
    (∀ j, j ≤ i → 0 ≤ wei fexp C hs T p x i j) ∧
    ∑ j ∈ (Finset.range T).filter (fun j => j ≤ i),
      wei fexp C hs T p x i j = 1 := by
  have hden := weiDenom_pos fexp hfexp C hs T p x hi
  refine ⟨?_, ?_, ?_⟩
  · unfold maskedScore
    rw [if_pos le_rfl]
    rfl
  · intro j _
    exact div_nonneg (expScore_nonneg fexp hfexp C hs p x i j) (le_of_lt hden)
  · rw [Finset.sum_filter_of_ne (fun j _ hne => ?_)]
    · unfold wei
      rw [← Finset.sum_div]
      exact div_self (ne_of_gt hden)
    · by_contra hji
      exact hne (wei_eq_zero_of_lt fexp C hs T p x (by omega))

theorem c5_attention_row_normalized_witness :
    (∀ z, 0 < (fun _ : ℚ => (1 : ℚ)) z) ∧ 0 < 2 ∧ 2 ≤ 32 ∧
    ((maskedScore 1 1 cHead cX 0 0).isSome ∧
      (∀ j, j ≤ 0 → 0 ≤ wei (fun _ => 1) 1 1 2 cHead cX 0 j) ∧
      ∑ j ∈ (Finset.range 2).filter (fun j => j ≤ 0),
        wei (fun _ => 1) 1 1 2 cHead cX 0 j = 1) :=
  ⟨fun _ => one_pos, by norm_num, by norm_num,
    c5_attention_row_normalized (fun _ => 1) (fun _ => one_pos) 1 1 2 cHead cX 0
      (by norm_num) (by norm_num)⟩

/-! ### C4: generation -/

/-- C4 counterexample: with an empty seed the very first iteration fails —
`logits[:, -1, :]` indexes an empty time axis — so `generate([], 1)` does
not return a sequence of length `0 + 1` as the claim requires. -/
theorem c4_generate_counterexample :
    generate wGPT (fun _ => 0) [] 1 = none := by
  have hok : okRow wGPT [] := ⟨by norm_num [wGPT], by simp⟩
  have h1 : forwardRow wGPT [] = some [] := by
    unfold forwardRow
    rw [if_pos hok]
    simp [logitsRow]
  simp [generate, lastN, h1]

/-- C4 (amended): for every nonempty seed of in-vocabulary token ids and
every `n ≥ 0` (with `max_context_length ≥ 1` and the sampler returning
in-vocabulary ids, as `torch.multinomial` over `vocab_size` classes does),
`generate(seed, n)` succeeds and returns a sequence of length
`len(seed) + n` whose first `len(seed)` entries are the seed unchanged;
each iteration runs the forward pass on at most the last
`max_context_length` tokens, samples one token from the softmax of the
final-position logits, and appends it. -/
theorem c4_generate_length (M : GPT) (sample : List ℚ → ℕ) (seed : List ℕ)
    (n : ℕ) (hne : seed ≠ []) (hval : ∀ t ∈ seed, t < M.V)
    (hctx : 1 ≤ M.ctx) (hsample : ∀ pr, sample pr < M.V) :
    ∃ out, generate M sample seed n = some out ∧
      out.length = seed.length + n ∧ out.take seed.length = seed := by
  induction n generalizing seed with
  | zero => exact ⟨seed, rfl, rfl, List.take_length seed⟩
  | succ n ih =>
      have hcne : lastN M.ctx seed ≠ [] := by
        unfold lastN
        intro hc
        have := List.length_eq_zero.mpr hc
        rw [List.length_drop] at this
        have hpos : 0 < seed.length :=
          List.length_pos.mpr hne
        omega
      have hcsub : ∀ t ∈ lastN M.ctx seed, t < M.V :=
        fun t ht => hval t (List.mem_of_mem_drop ht)
      have hclen : (lastN M.ctx seed).length ≤ M.ctx := by
        unfold lastN
        rw [List.length_drop]
        omega
      have hfwd : forwardRow M (lastN M.ctx seed) =
          some (logitsRow M (lastN M.ctx seed)) := by
        unfold forwardRow
        rw [if_pos ⟨hclen, hcsub⟩]
      have hLne : logitsRow M (lastN M.ctx seed) ≠ [] := by
        intro hc
        have := congrArg List.length hc
        rw [length_logitsRow] at this
        exact hcne (List.length_eq_zero.mp this)
      obtain ⟨lrow, hlrow⟩ :=
        Option.isSome_iff_exists.mp (List.getLast?_isSome.mpr hLne)
      have hstep : generate M sample seed (n + 1) =
          generate M sample (seed ++ [sample (softmaxList M.fexp lrow)]) n := by
        rw [generate, hfwd]
        dsimp only
        rw [hlrow]
      obtain ⟨out, hout, hlen, htake⟩ :=
        ih (seed ++ [sample (softmaxList M.fexp lrow)]) (by simp)
          (by
            intro t ht
            rcases List.mem_append.mp ht with hmem | hmem
            · exact hval t hmem
            · rw [List.mem_singleton.mp hmem]
              exact hsample _)
      refine ⟨out, hstep ▸ hout, ?_, ?_⟩
      · rw [hlen, List.length_append, List.length_singleton]
        ring
      · have h1 : out.take (seed.length + 1) = seed ++ [sample (softmaxList M.fexp lrow)] := by
          rw [← htake, List.length_append, List.length_singleton]
        have h2 : out.take seed.length = (out.take (seed.length + 1)).take seed.length := by
          rw [List.take_take]
          congr 1
          omega
        rw [h2, h1]
        exact List.take_left _ _

theorem c4_generate_length_witness :
    (([0] : List ℕ) ≠ [] ∧ (∀ t ∈ ([0] : List ℕ), t < wGPT.V) ∧
      1 ≤ wGPT.ctx ∧ ∀ pr : List ℚ, (fun _ : List ℚ => 0) pr < wGPT.V) ∧
    (∃ out, generate wGPT (fun _ => 0) [0] 3 = some out ∧
      out.length = ([0] : List ℕ).length + 3 ∧
      out.take ([0] : List ℕ).length = [0]) :=
  ⟨⟨by decide, by decide, by decide, fun _ => Nat.zero_lt_succ 1⟩,
    c4_generate_length wGPT (fun _ => 0) [0] 3 (by decide) (by decide)
      (by decide) (fun _ => Nat.zero_lt_succ 1)⟩

/-! ### C9 and C10: the vocabulary codec -/

theorem lookupIdx_isSome_iff (c : Char) :
    ∀ l : List Char, (lookupIdx c l).isSome ↔ c ∈ l := by
  intro l
  induction l with
  | nil => simp [lookupIdx]
  | cons d rest ih =>
      unfold lookupIdx
      by_cases hd : d = c
      · subst hd
        simp
      · rw [if_neg hd]
        have hmap : ((lookupIdx c rest).map (· + 1)).isSome
            = (lookupIdx c rest).isSome := by
          cases lookupIdx c rest <;> rfl
        rw [hmap, ih, List.mem_cons]
        constructor
        · exact fun h => Or.inr h
        · rintro (rfl | h)
          · exact absurd rfl hd
          · exact h

theorem lookupIdx_get (c : Char) :
    ∀ {l : List Char} {i : ℕ}, lookupIdx c l = some i → l[i]? = some c := by
  intro l
  induction l with
  | nil => intro i h; cases h
  | cons d rest ih =>
      intro i h
      unfold lookupIdx at h
      by_cases hd : d = c
      · rw [if_pos hd] at h
        cases h
        simpa using hd
      · rw [if_neg hd] at h
        cases hrec : lookupIdx c rest with
        | none => rw [hrec] at h; cases h
        | some j =>
            rw [hrec] at h
            have : i = j + 1 := by
              simpa using h.symm
            subst this
            simpa using ih hrec

theorem codec_round_trip_aux (chars : List Char) :
    ∀ s : List Char, (∀ c ∈ s, c ∈ chars) →
      ∃ ids, s.mapM (fun c => lookupIdx c chars) = some ids ∧
        ids.mapM (fun i => chars[i]?) = some s := by
  intro s
  induction s with
  | nil => exact fun _ => ⟨[], rfl, rfl⟩
  | cons c s' ih =>
      intro h
      obtain ⟨i, hi⟩ := Option.isSome_iff_exists.mp
        ((lookupIdx_isSome_iff c chars).mpr (h c (by simp)))
      obtain ⟨ids, hids, hdec⟩ := ih fun d hd => h d (by simp [hd])
      refine ⟨i :: ids, ?_, ?_⟩
      · rw [List.mapM_cons, hi, hids]
        rfl
      · rw [List.mapM_cons, lookupIdx_get c hi, hdec]
        rfl

/-- C9: round trip of the codec — for every string made only of
characters of the trained vocabulary, `decode (encode text) = text`. -/
theorem c9_codec_round_trip (text s : List Char)
    (h : ∀ c ∈ s, c ∈ charsOf text) :
    (encode text s).bind (decode text) = some s := by
  obtain ⟨ids, henc, hdec⟩ := codec_round_trip_aux (charsOf text) s h
  unfold encode decode
  rw [henc]
  exact hdec

theorem c9_codec_round_trip_witness :
    (∀ c ∈ (['a', 'b', 'a'] : List Char), c ∈ charsOf ['b', 'a', 'b']) ∧
    (encode ['b', 'a', 'b'] ['a', 'b', 'a']).bind (decode ['b', 'a', 'b'])
      = some ['a', 'b', 'a'] :=
  ⟨by decide, c9_codec_round_trip ['b', 'a', 'b'] ['a', 'b', 'a'] (by decide)⟩

/-- C10: `encode` is partial exactly at out-of-vocabulary characters — it
succeeds precisely when every character of the input is in the trained
vocabulary, and fails with a lookup error (returns nothing, rather than
skipping or substituting) as soon as one character is missing. -/
theorem c10_encode_partial (text s : List Char) :
    ((encode text s).isSome ↔ ∀ c ∈ s, c ∈ charsOf text) ∧
    ((∃ c ∈ s, c ∉ charsOf text) → encode text s = none) := by
  have hiff : (encode text s).isSome ↔ ∀ c ∈ s, c ∈ charsOf text := by
    unfold encode
    induction s with
    | nil => rw [List.mapM_nil]; simp
    | cons c s' ih =>
        rw [List.mapM_cons]
        cases h1 : lookupIdx c (charsOf text) with
        | none =>
            have hc : c ∉ charsOf text := by
              rw [← lookupIdx_isSome_iff c (charsOf text), h1]
              simp
            simp [hc]
        | some i =>
            have hc : c ∈ charsOf text := by
              rw [← lookupIdx_isSome_iff c (charsOf text), h1]
              rfl
            cases h2 : s'.mapM fun d => lookupIdx d (charsOf text) with
            | none =>
                rw [h2] at ih
                constructor
                · intro hfalse
                  simp at hfalse
                · intro hall
                  have hnone := ih.mpr fun d hd =>
                    hall d (List.mem_cons.mpr (Or.inr hd))
                  simp at hnone
            | some ids =>
                rw [h2] at ih
                simp only [Option.isSome_some, true_iff] at ih
                constructor
                · intro _ d hd
                  rcases List.mem_cons.mp hd with rfl | hmem
                  · exact hc
                  · exact ih d hmem
                · intro _
                  rfl
  refine ⟨hiff, fun ⟨c, hc, hcn⟩ => ?_⟩
  rw [← Option.not_isSome_iff_eq_none, hiff]
  exact fun hall => hcn (hall c hc)

end BigramLLM
